import Mathlib

set_option maxHeartbeats 1000000
set_option maxRecDepth 4000

/-!
Verification of the enrichment pipeline:
shallow embedding of backend/app/processing_queue_service.py and
backend/app/services/embedding_service.py (with its twin
backend/app/embedding_service.py).

Conventions of the embedding:
* MongoDB documents of the processing_queue collection become the `Job`
  structure; the collection itself is a `List Job` whose `id` field plays
  the role of the unique `_id` (uniqueness is the `Nodup` hypothesis).
* `find_one_and_update({"status": "pending"}, {"$set": ...},
  sort=[("priority", -1), ("created_at", 1)])` becomes `claimOne`:
  one atomic selection of the best pending document plus the in-place
  status update, exactly as Mongo performs it.
* timestamps are abstract `Nat` clock values supplied by the caller
  (the `now` arguments); `random.uniform(-0.2, 0.2)` becomes an explicit
  rational `jitterDraw` parameter constrained to `[-1/5, 1/5]`.
* Python byte strings become `List Nat` of values `< 256`; float32 values
  are embedded by their 32-bit patterns (`Nat < 2^32`), since
  `astype(np.float32).tobytes()` / `np.frombuffer(..., dtype=np.float32)`
  act on the raw bits only.
* real-valued vector arithmetic (`np.linalg.norm`, division) is embedded
  over `ℝ`.
-/

/-- Status values of a processing-queue document
(`"pending" | "processing" | "completed" | "failed"`). -/
inductive JobStatus where
  | pending
  | processing
  | completed
  | failed
deriving DecidableEq, Repr

/-- One document of the `processing_queue` collection, as created by
`add_to_queue` and mutated by the worker.  `id` stands for the Mongo `_id`. -/
structure Job where
  id : Nat
  video_id : String
  status : JobStatus
  priority : Int
  retry_count : Nat
  error_message : String
  created_at : Nat
  updated_at : Nat
deriving DecidableEq, Repr

/-- `j.status == "pending"`, the filter of the claiming query. -/
def isPending (j : Job) : Bool :=
  decide (j.status = JobStatus.pending)

/-- The Mongo sort order `[("priority", -1), ("created_at", 1)]` as a strict
comparison: `a` sorts strictly before `b`. -/
def betterJob (a b : Job) : Bool :=
  decide (b.priority < a.priority) ||
    (decide (a.priority = b.priority) && decide (a.created_at < b.created_at))

/-- First document of the collection in the sort order
`priority desc, created_at asc` (document order breaks remaining ties,
matching Mongo's stable natural order). -/
def selectBest : List Job → Option Job
  | [] => none
  | j :: rest =>
    match selectBest rest with
    | none => some j
    | some k => if betterJob k j then some k else some j

/-- The document returned by the claiming query filter+sort:
best pending job of the store. -/
def selectPending (store : List Job) : Option Job :=
  selectBest (store.filter isPending)

/-- The `$set` of the claim: `status := "processing"`, `updated_at := now`. -/
def claimUpdate (now : Nat) (j : Job) : Job :=
  { j with status := JobStatus.processing, updated_at := now }

/-- Replace the (unique) document whose `_id` is `jid` by `j2`. -/
def updateById (store : List Job) (jid : Nat) (j2 : Job) : List Job :=
  store.map (fun x => if x.id = jid then j2 else x)

/-- One `find_one_and_update` call of `_claim_pending_jobs`: atomically
select the best pending job and set it to processing; returns the updated
document (`return_document=True`) and the new store. -/
def claimOne (now : Nat) (store : List Job) : Option Job × List Job :=
  match selectPending store with
  | none => (none, store)
  | some j => (some (claimUpdate now j), updateById store j.id (claimUpdate now j))

/-- `_claim_pending_jobs(limit)`: loop `limit` times, each iteration doing one
atomic find-and-update, stopping early when no pending job remains.  Returns
the claimed jobs (in claim order) and the final store. -/
def claimPendingJobs (now : Nat) : Nat → List Job → List Job × List Job
  | 0, store => ([], store)
  | limit + 1, store =>
    match claimOne now store with
    | (none, store2) => ([], store2)
    | (some j, store2) =>
      let p := claimPendingJobs now limit store2
      (j :: p.1, p.2)

/-- The ordering the spec promises for the claimed sequence:
priority descending, then created_at ascending. -/
def claimOrder (a b : Job) : Prop :=
  b.priority < a.priority ∨ (a.priority = b.priority ∧ a.created_at ≤ b.created_at)

/-- Number of pending jobs in the store. -/
def pendingCount (store : List Job) : Nat :=
  (store.filter isPending).length

/-- `backoff + jitter` of `_handle_job_failure`:
`backoff = 2 ** retry_count`, `jitter = backoff * random.uniform(-0.2, 0.2)`,
`wait_time = backoff + jitter`.  The uniform draw is the explicit
parameter `jitterDraw`. -/
def backoffWait (retryCount : Nat) (jitterDraw : ℚ) : ℚ :=
  (2 ^ retryCount : ℚ) + (2 ^ retryCount : ℚ) * jitterDraw

/-- Effect of `_handle_job_failure` on the job document and the video:
the new job document, whether the video's `processing_status` was set to
`"failed"`, and the slept backoff duration (when requeued). -/
structure FailureOutcome where
  job : Job
  videoMarkedFailed : Bool
  sleptSeconds : Option ℚ
deriving Repr

/-- `_handle_job_failure(job, error_msg)`: increment the retry count; if
`retry_count >= max_retries` mark the job failed and the video failed;
otherwise sleep the jittered backoff and reset the job to pending with the
incremented retry count and the error message. -/
def handleJobFailure (maxRetries : Nat) (job : Job) (errorMsg : String)
    (jitterDraw : ℚ) (now : Nat) : FailureOutcome :=
  let rc := job.retry_count + 1
  if maxRetries ≤ rc then
    { job := { job with
                 status := JobStatus.failed
                 error_message := errorMsg
                 retry_count := rc
                 updated_at := now }
      videoMarkedFailed := true
      sleptSeconds := none }
  else
    { job := { job with
                 status := JobStatus.pending
                 error_message := errorMsg
                 retry_count := rc
                 updated_at := now }
      videoMarkedFailed := false
      sleptSeconds := some (backoffWait rc jitterDraw) }

/-- Job document as inserted by `add_to_queue`:
`status="pending"`, `retry_count=0`, `error_message=""`. -/
def freshJob (jid : Nat) (vid : String) (priority : Int) (now : Nat) : Job :=
  { id := jid, video_id := vid, status := JobStatus.pending,
    priority := priority, retry_count := 0, error_message := "",
    created_at := now, updated_at := now }

/-- The job document after `n` consecutive failed processing attempts of a
job that always fails, starting from `j0`. -/
def iterFailures (maxRetries : Nat) (j0 : Job) (errorMsg : String)
    (jitterDraw : ℚ) (now : Nat) : Nat → Job
  | 0 => j0
  | n + 1 =>
    (handleJobFailure maxRetries
      (iterFailures maxRetries j0 errorMsg jitterDraw now n)
      errorMsg jitterDraw now).job

/-- State of one concurrent caller of `_claim_pending_jobs`: the jobs it has
claimed so far and whether its loop broke on an empty find. -/
structure ClaimerState where
  claimed : List Job
  stopped : Bool
deriving DecidableEq, Repr

/-- A shared store and `numClaimers` concurrent callers, each running the
claim loop of `_claim_pending_jobs`.  `claimers` is total on `Nat`; only
indices below `numClaimers` are meaningful. -/
structure PoolState where
  store : List Job
  numClaimers : Nat
  claimers : Nat → ClaimerState

/-- A caller's loop has ended: it broke on an empty find, or it completed
its `limit` iterations (each iteration claims exactly one job). -/
def claimerDone (limit : Nat) (c : ClaimerState) : Bool :=
  c.stopped || decide (limit ≤ c.claimed.length)

/-- One interleaving step: caller `i` performs its next atomic
`find_one_and_update`.  A finished caller (or an index out of range)
leaves the state unchanged. -/
def poolStep (limit : Nat) (s : PoolState) (i : Nat) : PoolState :=
  if i < s.numClaimers then
    if claimerDone limit (s.claimers i) then s
    else
      match claimOne 0 s.store with
      | (none, store2) =>
        ⟨store2, s.numClaimers,
          Function.update s.claimers i ⟨(s.claimers i).claimed, true⟩⟩
      | (some j, store2) =>
        ⟨store2, s.numClaimers,
          Function.update s.claimers i
            ⟨(s.claimers i).claimed ++ [j], (s.claimers i).stopped⟩⟩
  else s

/-- Run an arbitrary interleaving (schedule) of atomic claim steps. -/
def runPool (limit : Nat) (sched : List Nat) (s : PoolState) : PoolState :=
  sched.foldl (poolStep limit) s

/-- Initial pool: the given store and `n` callers that have claimed nothing. -/
def initPool (store : List Job) (n : Nat) : PoolState :=
  { store := store, numClaimers := n,
    claimers := fun _ => { claimed := [], stopped := false } }

/-- Every caller's claim loop has ended. -/
def allDone (limit : Nat) (s : PoolState) : Bool :=
  (List.range s.numClaimers).all (fun i => claimerDone limit (s.claimers i))

/-- Total number of jobs returned across all callers. -/
def totalClaimed (s : PoolState) : Nat :=
  ((List.range s.numClaimers).map (fun i => (s.claimers i).claimed.length)).sum

/-- The `_id`s of the jobs returned to caller `i`. -/
def claimedIds (s : PoolState) (i : Nat) : List Nat :=
  ((s.claimers i).claimed).map Job.id

/-- The externally visible actions of `_process_single_job`, in program
order.  `writeVideo` stands for the single `db.videos.update_one` that sets
transcript, embedding, `processing_status="completed"` and the two
timestamps; `enqueueQuiz` is the `enqueue_quiz_job` handoff to the ARQ
queue; `markJobCompleted` is the final queue-document update. -/
inductive PEvent where
  | fetchVideo
  | fetchTranscript
  | generateEmbedding
  | enqueueQuiz
  | writeVideo
  | markJobCompleted
deriving DecidableEq, Repr

/-- Environment of one processing attempt: whether the video document
exists, what the transcript fetch returns, and what
`generate_embedding` returns (`none` models failure/`None`). -/
structure ProcEnv where
  videoExists : Bool
  transcriptResult : Option String
  embeddingBinary : Option (List Nat)
deriving Repr

/-- The `try` block of `_process_single_job`: the sequence of actions
performed and, when an exception is raised, its message (routing to
`_handle_job_failure`).  Python truthiness: an empty transcript or empty
embedding bytes also raise. -/
def processAttempt (env : ProcEnv) : List PEvent × Option String :=
  if env.videoExists = false then
    ([PEvent.fetchVideo], some "video not found in database")
  else
    match env.transcriptResult with
    | none => ([PEvent.fetchVideo, PEvent.fetchTranscript], some "failed to fetch transcript")
    | some t =>
      if t.data.isEmpty then
        ([PEvent.fetchVideo, PEvent.fetchTranscript], some "failed to fetch transcript")
      else
        match env.embeddingBinary with
        | none =>
          ([PEvent.fetchVideo, PEvent.fetchTranscript, PEvent.generateEmbedding],
           some "failed to generate embedding")
        | some b =>
          if b.isEmpty then
            ([PEvent.fetchVideo, PEvent.fetchTranscript, PEvent.generateEmbedding],
             some "failed to generate embedding")
          else
            ([PEvent.fetchVideo, PEvent.fetchTranscript, PEvent.generateEmbedding,
              PEvent.enqueueQuiz, PEvent.writeVideo, PEvent.markJobCompleted],
             none)

/-- Python `str.rfind(' ', start, stop)` on a character list: the highest
index `i` with `start ≤ i < stop`, `i < text.length` and `text[i] = ' '`
(`none` models the `-1` result). -/
def rfindSpace (text : List Char) (start stop : Nat) : Option Nat :=
  ((List.range text.length).filter
    (fun i => decide (start ≤ i) && decide (i < stop) && decide (text.get? i = some ' '))).getLast?

/-- Python whitespace as stripped by `str.strip()` (the characters relevant
to transcripts). -/
def isPySpace (c : Char) : Bool :=
  c = ' ' || c = '\t' || c = '\n' || c = '\r'

/-- Python `str.strip()` on a character list. -/
def stripChars (l : List Char) : List Char :=
  ((l.dropWhile isPySpace).reverse.dropWhile isPySpace).reverse

/-- One iteration of the `while` loop of `chunk_text`: from the current
window `start` compute the produced chunk and the next `start`.
`end` backs off to the last space strictly inside `(start, start+size)`
when the window does not reach the end of the text; the next start is
`end - overlap`, clamped at 0 (Python `if start < 0: start = 0`; `Nat`
subtraction performs the same clamp). -/
def chunkStep (text : List Char) (size overlap start : Nat) : List Char × Nat :=
  let end0 := start + size
  let end1 :=
    if end0 < text.length then
      match rfindSpace text start end0 with
      | some ls => if start < ls then ls else end0
      | none => end0
    else end0
  (stripChars ((text.drop start).take (end1 - start)), end1 - overlap)

/-- The `while start < len(text)` loop of `chunk_text`, made total with a
fuel parameter: `none` means the fuel ran out with the loop still running
(so the Python loop has not terminated within `fuel` iterations). -/
def chunkLoop (text : List Char) (size overlap : Nat) :
    Nat → Nat → List (List Char) → Option (List (List Char))
  | 0, _, _ => none
  | fuel + 1, start, acc =>
    if start < text.length then
      let p := chunkStep text size overlap start
      chunkLoop text size overlap fuel p.2 (acc ++ [p.1])
    else some acc

/-- `chunk_text(text, chunk_size_chars, overlap_chars)`: empty text gives
`[]`; text fitting one chunk gives `[text]`; otherwise the sliding-window
loop (fuel-based; `none` = the loop had not terminated after `fuel`
iterations). -/
def chunkText (fuel : Nat) (text : List Char) (size overlap : Nat) :
    Option (List (List Char)) :=
  if text.isEmpty then some []
  else if text.length ≤ size then some [text]
  else chunkLoop text size overlap fuel 0 []

/-- Little-endian byte split of one float32 bit pattern, as produced for
each component by `astype(np.float32).tobytes()`. -/
def word32ToBytesLE (w : Nat) : List Nat :=
  [w % 256, w / 256 % 256, w / 65536 % 256, w / 16777216 % 256]

/-- `_embedding_to_binary(embedding)`: concatenate the 4 little-endian
bytes of every component's float32 bit pattern. -/
def embeddingToBinary (v : List Nat) : List Nat :=
  (v.map word32ToBytesLE).flatten

/-- Recombine 4 little-endian bytes into one float32 bit pattern. -/
def bytesToWord32LE (b0 b1 b2 b3 : Nat) : Nat :=
  b0 + 256 * b1 + 65536 * b2 + 16777216 * b3

/-- `binary_to_embedding(binary_data)`:
`np.frombuffer(binary_data, dtype=np.float32)`, reading the buffer as
consecutive little-endian 4-byte groups. -/
def binaryToEmbedding : List Nat → List Nat
  | b0 :: b1 :: b2 :: b3 :: rest => bytesToWord32LE b0 b1 b2 b3 :: binaryToEmbedding rest
  | _ => []

/-- `np.linalg.norm(v)`: the L2 norm, over `ℝ`. -/
noncomputable def l2norm (v : List ℝ) : ℝ :=
  Real.sqrt ((v.map (fun x => x * x)).sum)

open Classical in
/-- `_normalize_embedding(embedding)`: if the L2 norm is 0 return the
vector unchanged, otherwise divide every component by the norm. -/
noncomputable def normalizeEmbedding (v : List ℝ) : List ℝ :=
  if l2norm v = 0 then v else v.map (fun x => x / l2norm v)

/-- The five operations the `try` block of `generate_embedding` runs, in
order: `_clean_text`, `_truncate_to_tokens`, the executor-run model
`encode`, `_normalize_embedding`, `_embedding_to_binary`.  Each is a call
that, per Python semantics, may raise (`Except.error`); vectors and bytes
are abstracted to `List Nat` since only the control flow matters here. -/
structure EmbedEnv where
  cleanText : String → Except String String
  truncateToTokens : String → Except String String
  encode : String → Except String (List Nat)
  normalize : List Nat → Except String (List Nat)
  toBinary : List Nat → Except String (List Nat)

/-- Python `not text or not text.strip()`: empty or whitespace-only
(`str.strip()` embedded at the character level by `stripChars`). -/
def isBlankText (s : String) : Bool :=
  s.data.isEmpty || (stripChars s.data).isEmpty

/-- `generate_embedding(text)` (identical in both embedding-service files):
blank input returns `None` up front; otherwise the five pipeline steps run
inside `try`, any raised error is caught and turned into `None`, and the
binary result is returned only when every step succeeded. -/
def generateEmbedding (env : EmbedEnv) (text : String) : Option (List Nat) :=
  if isBlankText text then none
  else
    match env.cleanText text with
    | Except.error _ => none
    | Except.ok c =>
      match env.truncateToTokens c with
      | Except.error _ => none
      | Except.ok t =>
        match env.encode t with
        | Except.error _ => none
        | Except.ok e =>
          match env.normalize e with
          | Except.error _ => none
          | Except.ok n =>
            match env.toBinary n with
            | Except.error _ => none
            | Except.ok b => some b

/-- Environment whose five pipeline steps all succeed (used to exercise
`generateEmbedding` on concrete inputs). -/
def envOk : EmbedEnv :=
  { cleanText := fun s => Except.ok s
    truncateToTokens := fun s => Except.ok s
    encode := fun _ => Except.ok [1]
    normalize := fun v => Except.ok v
    toBinary := fun v => Except.ok v }

/-- The text "ab cccc" as a character list: a pathological input for
`chunk_text` (a space close to the window start). -/
def bugText : List Char := ['a', 'b', ' ', 'c', 'c', 'c', 'c']

/-- Three pending jobs with priorities 1, 5, 3 (the spec's ordering
example). -/
def storePrio : List Job :=
  [freshJob 1 "v1" 1 0, freshJob 2 "v2" 5 1, freshJob 3 "v3" 3 2]

/-- Environment of a fully successful processing attempt. -/
def envSuccess : ProcEnv :=
  { videoExists := true, transcriptResult := some "t", embeddingBinary := some [1] }

/-- Environment where the video document is missing from the store. -/
def envNoVideo : ProcEnv :=
  { videoExists := false, transcriptResult := none, embeddingBinary := none }

/-- Invariant of the concurrent claiming machine, relative to the initial
number `M` of pending jobs: store ids stay unique, claimed plus pending
counts are conserved, no caller exceeds its limit, a stopped caller proves
the pending set was exhausted, every claimed job is processing in the
store, and claimed ids are duplicate-free within and across callers. -/
def PoolInv (limit M : Nat) (s : PoolState) : Prop :=
  (s.store.map Job.id).Nodup ∧
  pendingCount s.store + totalClaimed s = M ∧
  (∀ i, i < s.numClaimers → (s.claimers i).claimed.length ≤ limit) ∧
  (∀ i, i < s.numClaimers → (s.claimers i).stopped = true → pendingCount s.store = 0) ∧
  (∀ i, i < s.numClaimers → ∀ x ∈ (s.claimers i).claimed,
    ∃ y ∈ s.store, y.id = x.id ∧ y.status = JobStatus.processing) ∧
  (∀ i, i < s.numClaimers → (claimedIds s i).Nodup) ∧
  (∀ i j, i < s.numClaimers → j < s.numClaimers → i ≠ j →
    ∀ x ∈ claimedIds s i, x ∉ claimedIds s j)

theorem isPending_iff {j : Job} : isPending j = true ↔ j.status = JobStatus.pending := by
  simp [isPending]

theorem betterJob_self (j : Job) : betterJob j j = false := by
  simp [betterJob]

theorem betterJob_asymm {a b : Job} (h : betterJob a b = true) : betterJob b a = false := by
  simp [betterJob] at h ⊢
  omega

theorem not_better_trans {a b c : Job}
    (h1 : betterJob a b = false) (h2 : betterJob b c = false) : betterJob a c = false := by
  simp [betterJob] at h1 h2 ⊢
  omega

theorem claimOrder_of_not_better {a b : Job} (h : betterJob b a = false) : claimOrder a b := by
  simp [betterJob] at h
  unfold claimOrder
  omega

theorem selectBest_eq_none {l : List Job} : selectBest l = none ↔ l = [] := by
  cases l with
  | nil => simp [selectBest]
  | cons j rest =>
    simp only [selectBest]
    constructor
    · intro hh
      split at hh
      · simp at hh
      · split at hh <;> simp at hh
    · intro hh
      simp at hh

theorem selectBest_mem {l : List Job} {j : Job} (h : selectBest l = some j) : j ∈ l := by
  induction l generalizing j with
  | nil => simp [selectBest] at h
  | cons a rest ih =>
    simp only [selectBest] at h
    split at h
    · simp at h
      simp [h]
    · next k heq =>
      split at h
      · simp at h
        subst h
        exact List.mem_cons_of_mem a (ih heq)
      · simp at h
        simp [h]

theorem selectBest_best {l : List Job} {j : Job} (h : selectBest l = some j) :
    ∀ k ∈ l, betterJob k j = false := by
  induction l generalizing j with
  | nil => simp
  | cons a rest ih =>
    simp only [selectBest] at h
    split at h
    · next heq =>
      have hr : rest = [] := selectBest_eq_none.mp heq
      simp at h
      subst h
      subst hr
      intro k hk
      simp at hk
      subst hk
      exact betterJob_self _
    · next k0 heq =>
      intro k hk
      split at h
      · next hb =>
        simp at h
        subst h
        rcases List.mem_cons.mp hk with rfl | hk2
        · exact betterJob_asymm hb
        · exact ih heq k hk2
      · next hb =>
        simp at h
        subst h
        have hb2 : betterJob k0 a = false := by simpa using hb
        rcases List.mem_cons.mp hk with rfl | hk2
        · exact betterJob_self _
        · exact not_better_trans (ih heq k hk2) hb2

theorem selectPending_none_iff {store : List Job} :
    selectPending store = none ↔ pendingCount store = 0 := by
  rw [selectPending, selectBest_eq_none, pendingCount, List.length_eq_zero]

theorem selectPending_spec {store : List Job} {j : Job} (h : selectPending store = some j) :
    j ∈ store ∧ j.status = JobStatus.pending ∧
      ∀ k ∈ store, k.status = JobStatus.pending → betterJob k j = false := by
  have hm := selectBest_mem h
  have hmem := List.mem_filter.mp hm
  refine ⟨hmem.1, isPending_iff.mp hmem.2, ?_⟩
  intro k hk hkp
  exact selectBest_best h k (List.mem_filter.mpr ⟨hk, isPending_iff.mpr hkp⟩)

theorem claimOne_none {now : Nat} {store s2 : List Job}
    (h : claimOne now store = (none, s2)) : s2 = store ∧ pendingCount store = 0 := by
  unfold claimOne at h
  cases hp : selectPending store with
  | none =>
    rw [hp] at h
    simp at h
    exact ⟨h.symm, selectPending_none_iff.mp hp⟩
  | some j =>
    rw [hp] at h
    simp at h

theorem claimOne_some {now : Nat} {store s2 : List Job} {x : Job}
    (h : claimOne now store = (some x, s2)) :
    ∃ j, selectPending store = some j ∧ x = claimUpdate now j ∧
      s2 = updateById store j.id (claimUpdate now j) := by
  unfold claimOne at h
  cases hp : selectPending store with
  | none =>
    rw [hp] at h
    simp at h
  | some j =>
    rw [hp] at h
    simp at h
    exact ⟨j, rfl, h.1.symm, h.2.symm⟩

theorem updateById_map_id {store : List Job} {jid : Nat} {j2 : Job} (h : j2.id = jid) :
    (updateById store jid j2).map Job.id = store.map Job.id := by
  unfold updateById
  rw [List.map_map]
  apply List.map_congr_left
  intro a _
  by_cases hh : a.id = jid
  · simp [hh, h]
  · simp [hh]

theorem updateById_not_mem {store : List Job} {jid : Nat} {j2 : Job}
    (h : jid ∉ store.map Job.id) : updateById store jid j2 = store := by
  unfold updateById
  conv_rhs => rw [← List.map_id store]
  apply List.map_congr_left
  intro a ha
  have : a.id ≠ jid := fun hc => h (hc ▸ List.mem_map_of_mem Job.id ha)
  simp [this]

theorem mem_updateById_of_ne {store : List Job} {jid : Nat} {j2 y : Job}
    (hy : y ∈ store) (hne : y.id ≠ jid) : y ∈ updateById store jid j2 := by
  exact List.mem_map.mpr ⟨y, hy, if_neg hne⟩

theorem mem_updateById_self {store : List Job} {jid : Nat} {j2 j : Job}
    (hj : j ∈ store) (hid : j.id = jid) : j2 ∈ updateById store jid j2 := by
  exact List.mem_map.mpr ⟨j, hj, if_pos hid⟩

theorem mem_updateById_elim {store : List Job} {jid : Nat} {j2 z : Job}
    (hz : z ∈ updateById store jid j2) : z = j2 ∨ (z ∈ store ∧ z.id ≠ jid) := by
  obtain ⟨x, hx, hxz⟩ := List.mem_map.mp hz
  by_cases h : x.id = jid
  · left
    rw [if_pos h] at hxz
    exact hxz.symm
  · right
    rw [if_neg h] at hxz
    subst hxz
    exact ⟨hx, h⟩

theorem pendingCount_updateById {store : List Job} {j j2 : Job}
    (hnd : (store.map Job.id).Nodup) (hj : j ∈ store)
    (hp : isPending j = true) (hq : isPending j2 = false) :
    pendingCount (updateById store j.id j2) + 1 = pendingCount store := by
  induction store with
  | nil => cases hj
  | cons a t ih =>
    rw [List.map_cons, List.nodup_cons] at hnd
    rcases List.mem_cons.mp hj with rfl | hjt
    · have ht : updateById t j.id j2 = t := updateById_not_mem hnd.1
      show pendingCount ((if j.id = j.id then j2 else j) :: updateById t j.id j2) + 1 = _
      rw [if_pos rfl, ht]
      simp [pendingCount, List.filter_cons, hp, hq]
    · have hne : a.id ≠ j.id := by
        intro hc
        exact hnd.1 (hc ▸ List.mem_map_of_mem Job.id hjt)
      show pendingCount ((if a.id = j.id then j2 else a) :: updateById t j.id j2) + 1 = _
      rw [if_neg hne]
      have := ih hnd.2 hjt
      simp only [pendingCount, List.filter_cons] at this ⊢
      cases hpa : isPending a <;> simp [hpa] <;> omega

/-- C5: every failed attempt increments `retry_count`; once the incremented
count reaches `max_retries` the job is marked failed (error recorded, video
marked failed) and otherwise it returns to pending carrying the incremented
count and the error.  Iterating failures from a fresh job, the job stays
pending with `retry_count = n` for `n < max_retries` and becomes failed with
`retry_count = max_retries` exactly at the `max_retries`-th failure; a failed
job is never selected by the claim query again (only pending jobs are). -/
theorem retry_termination (maxRetries : Nat) (hmr : 0 < maxRetries)
    (j0 : Job) (h0 : j0.retry_count = 0) (h0p : j0.status = JobStatus.pending)
    (errorMsg : String) (jd : ℚ) (now : Nat) :
    (∀ (job : Job) (err : String),
      (maxRetries ≤ job.retry_count + 1 →
        (handleJobFailure maxRetries job err jd now).job.status = JobStatus.failed ∧
        (handleJobFailure maxRetries job err jd now).job.retry_count = job.retry_count + 1 ∧
        (handleJobFailure maxRetries job err jd now).job.error_message = err ∧
        (handleJobFailure maxRetries job err jd now).videoMarkedFailed = true) ∧
      (job.retry_count + 1 < maxRetries →
        (handleJobFailure maxRetries job err jd now).job.status = JobStatus.pending ∧
        (handleJobFailure maxRetries job err jd now).job.retry_count = job.retry_count + 1 ∧
        (handleJobFailure maxRetries job err jd now).job.error_message = err ∧
        (handleJobFailure maxRetries job err jd now).videoMarkedFailed = false)) ∧
    (∀ n, (iterFailures maxRetries j0 errorMsg jd now n).retry_count = n) ∧
    (∀ n, n < maxRetries →
      (iterFailures maxRetries j0 errorMsg jd now n).status = JobStatus.pending) ∧
    (iterFailures maxRetries j0 errorMsg jd now maxRetries).status = JobStatus.failed ∧
    (iterFailures maxRetries j0 errorMsg jd now maxRetries).retry_count = maxRetries ∧
    (iterFailures maxRetries j0 errorMsg jd now maxRetries).error_message = errorMsg ∧
    (∀ (store : List Job) (k : Job),
      selectPending store = some k → k.status = JobStatus.pending) := by
  have hsingle : ∀ (job : Job) (err : String),
      (maxRetries ≤ job.retry_count + 1 →
        (handleJobFailure maxRetries job err jd now).job.status = JobStatus.failed ∧
        (handleJobFailure maxRetries job err jd now).job.retry_count = job.retry_count + 1 ∧
        (handleJobFailure maxRetries job err jd now).job.error_message = err ∧
        (handleJobFailure maxRetries job err jd now).videoMarkedFailed = true) ∧
      (job.retry_count + 1 < maxRetries →
        (handleJobFailure maxRetries job err jd now).job.status = JobStatus.pending ∧
        (handleJobFailure maxRetries job err jd now).job.retry_count = job.retry_count + 1 ∧
        (handleJobFailure maxRetries job err jd now).job.error_message = err ∧
        (handleJobFailure maxRetries job err jd now).videoMarkedFailed = false) := by
    intro job err
    constructor
    · intro h
      simp [handleJobFailure, h]
    · intro h
      rw [handleJobFailure]
      rw [if_neg (by omega)]
      exact ⟨rfl, rfl, rfl, rfl⟩
  have hrc : ∀ n, (iterFailures maxRetries j0 errorMsg jd now n).retry_count = n := by
    intro n
    induction n with
    | zero => simpa [iterFailures] using h0
    | succ m ihm =>
      rw [iterFailures]
      rw [handleJobFailure]
      split <;> simp [ihm]
  have hpend : ∀ n, n < maxRetries →
      (iterFailures maxRetries j0 errorMsg jd now n).status = JobStatus.pending := by
    intro n
    induction n with
    | zero => intro _; simpa [iterFailures] using h0p
    | succ m ihm =>
      intro hlt
      rw [iterFailures, handleJobFailure]
      rw [if_neg (by rw [hrc m]; omega)]
  obtain ⟨mm, rfl⟩ : ∃ mm, maxRetries = mm + 1 := ⟨maxRetries - 1, by omega⟩
  refine ⟨hsingle, hrc, hpend, ?_, hrc (mm + 1), ?_, ?_⟩
  · rw [iterFailures, handleJobFailure]
    rw [if_pos (by rw [hrc mm])]
  · rw [iterFailures, handleJobFailure]
    rw [if_pos (by rw [hrc mm])]
  · intro store k hk
    exact (selectPending_spec hk).2.1

/-- Witness for C5 at `max_retries = 3` and a fresh job. -/
theorem retry_termination_witness :
    (0 < 3 ∧ (freshJob 0 "v" 0 0).retry_count = 0 ∧
      (freshJob 0 "v" 0 0).status = JobStatus.pending) ∧
    ((iterFailures 3 (freshJob 0 "v" 0 0) "boom" 0 0 3).status = JobStatus.failed ∧
      (iterFailures 3 (freshJob 0 "v" 0 0) "boom" 0 0 3).retry_count = 3) :=
  ⟨⟨by decide, rfl, rfl⟩,
    ⟨(retry_termination 3 (by decide) (freshJob 0 "v" 0 0) rfl rfl "boom" 0 0).2.2.2.1,
     (retry_termination 3 (by decide) (freshJob 0 "v" 0 0) rfl rfl "boom" 0 0).2.2.2.2.1⟩⟩

/-- C6: the requeue branch of the failure handler sleeps
`backoffWait rc jitterDraw = 2^rc + 2^rc * jitterDraw`, and for any jitter
draw in `[-0.2, 0.2]` this lies in `[0.8 * 2^rc, 1.2 * 2^rc]` seconds. -/
theorem backoff_bounds (r : Nat) (jd : ℚ) (h1 : -(1/5) ≤ jd) (h2 : jd ≤ 1/5) :
    backoffWait r jd = 2 ^ r + 2 ^ r * jd ∧
    (2 ^ r : ℚ) * (4/5) ≤ backoffWait r jd ∧
    backoffWait r jd ≤ (2 ^ r : ℚ) * (6/5) ∧
    (∀ (maxRetries now : Nat) (job : Job) (err : String),
      job.retry_count + 1 < maxRetries →
      (handleJobFailure maxRetries job err jd now).sleptSeconds =
        some (backoffWait (job.retry_count + 1) jd)) := by
  have hpow : (0 : ℚ) < 2 ^ r := by positivity
  refine ⟨rfl, ?_, ?_, ?_⟩
  · unfold backoffWait
    nlinarith
  · unfold backoffWait
    nlinarith
  · intro maxRetries now job err hlt
    rw [handleJobFailure]
    rw [if_neg (by omega)]

/-- Witness for C6 at `retry_count = 2`: the backoff lies in
`[3.2, 4.8] = [16/5, 24/5]` seconds. -/
theorem backoff_bounds_witness :
    (-(1/5 : ℚ) ≤ 0 ∧ (0 : ℚ) ≤ 1/5) ∧
    ((16/5 : ℚ) ≤ backoffWait 2 0 ∧ backoffWait 2 0 ≤ (24/5 : ℚ)) :=
  ⟨⟨by norm_num, by norm_num⟩,
    ⟨by
      have h := (backoff_bounds 2 0 (by norm_num) (by norm_num)).2.1
      norm_num at h ⊢
      linarith,
     by
      have h := (backoff_bounds 2 0 (by norm_num) (by norm_num)).2.2.1
      norm_num at h ⊢
      linarith⟩⟩

theorem embeddingToBinary_cons (a : Nat) (t : List Nat) :
    embeddingToBinary (a :: t) = word32ToBytesLE a ++ embeddingToBinary t := by
  simp [embeddingToBinary]

/-- C8: `binary_to_embedding (embedding_to_binary v)` returns `v`
bit-identically (components are float32 bit patterns, i.e. values below
`2^32`), and the binary form is exactly `4 * dimension` bytes of
little-endian 32-bit groups. -/
theorem embedding_binary_roundtrip (v : List Nat) (h : ∀ x ∈ v, x < 4294967296) :
    binaryToEmbedding (embeddingToBinary v) = v ∧
    (embeddingToBinary v).length = 4 * v.length := by
  constructor
  · induction v with
    | nil => rfl
    | cons a t ih =>
      have ha : a < 4294967296 := h a (List.mem_cons_self a t)
      rw [embeddingToBinary_cons]
      show binaryToEmbedding
        (a % 256 :: a / 256 % 256 :: a / 65536 % 256 :: a / 16777216 % 256
          :: embeddingToBinary t) = a :: t
      rw [binaryToEmbedding]
      rw [ih (fun x hx => h x (List.mem_cons_of_mem a hx))]
      congr 1
      unfold bytesToWord32LE
      omega
  · induction v with
    | nil => rfl
    | cons a t ih =>
      rw [embeddingToBinary_cons, List.length_append,
        ih (fun x hx => h x (List.mem_cons_of_mem a hx))]
      show 4 + 4 * t.length = 4 * (t.length + 1)
      omega

/-- Witness for C8 on a concrete three-component vector. -/
theorem embedding_binary_roundtrip_witness :
    (∀ x ∈ [0, 4294967295, 305419896], x < 4294967296) ∧
    (binaryToEmbedding (embeddingToBinary [0, 4294967295, 305419896]) =
        [0, 4294967295, 305419896] ∧
      (embeddingToBinary [0, 4294967295, 305419896]).length = 4 * 3) :=
  ⟨by decide, embedding_binary_roundtrip [0, 4294967295, 305419896] (by decide)⟩

/-- C10: `generate_embedding` is total (never raises): blank (empty or
whitespace-only) input yields `None` outright; any error raised by the
cleaning, truncation, encoding, normalization or serialization step is
caught and yields `None`; and a `Some`/bytes result appears exactly when
every one of the five steps succeeds. -/
theorem generate_embedding_total (env : EmbedEnv) (text : String) :
    (isBlankText text = true → generateEmbedding env text = none) ∧
    (∀ e, env.cleanText text = Except.error e → generateEmbedding env text = none) ∧
    (∀ c e, env.cleanText text = Except.ok c →
      env.truncateToTokens c = Except.error e → generateEmbedding env text = none) ∧
    (∀ c t e, env.cleanText text = Except.ok c → env.truncateToTokens c = Except.ok t →
      env.encode t = Except.error e → generateEmbedding env text = none) ∧
    (∀ c t v e, env.cleanText text = Except.ok c → env.truncateToTokens c = Except.ok t →
      env.encode t = Except.ok v → env.normalize v = Except.error e →
      generateEmbedding env text = none) ∧
    (∀ c t v n e, env.cleanText text = Except.ok c → env.truncateToTokens c = Except.ok t →
      env.encode t = Except.ok v → env.normalize v = Except.ok n →
      env.toBinary n = Except.error e → generateEmbedding env text = none) ∧
    (∀ b, generateEmbedding env text = some b ↔
      (isBlankText text = false ∧
       ∃ c t v n, env.cleanText text = Except.ok c ∧
         env.truncateToTokens c = Except.ok t ∧
         env.encode t = Except.ok v ∧
         env.normalize v = Except.ok n ∧
         env.toBinary n = Except.ok b)) := by
  by_cases hb : isBlankText text
  · refine ⟨fun _ => by simp [generateEmbedding, hb], ?_, ?_, ?_, ?_, ?_, ?_⟩
    · intro e _; simp [generateEmbedding, hb]
    · intro c e _ _; simp [generateEmbedding, hb]
    · intro c t e _ _ _; simp [generateEmbedding, hb]
    · intro c t v e _ _ _ _; simp [generateEmbedding, hb]
    · intro c t v n e _ _ _ _ _; simp [generateEmbedding, hb]
    · intro b
      simp [generateEmbedding, hb]
  · have hb2 : isBlankText text = false := by simpa using hb
    refine ⟨fun hc => absurd hc hb, ?_, ?_, ?_, ?_, ?_, ?_⟩
    · intro e he
      simp [generateEmbedding, hb2, he]
    · intro c e hc he
      simp [generateEmbedding, hb2, hc, he]
    · intro c t e hc ht he
      simp [generateEmbedding, hb2, hc, ht, he]
    · intro c t v e hc ht hv he
      simp [generateEmbedding, hb2, hc, ht, hv, he]
    · intro c t v n e hc ht hv hn he
      simp [generateEmbedding, hb2, hc, ht, hv, hn, he]
    · intro b
      constructor
      · intro hsome
        refine ⟨hb2, ?_⟩
        simp only [generateEmbedding, hb2, Bool.false_eq_true, if_false] at hsome
        cases hc : env.cleanText text with
        | error e => simp only [hc] at hsome; exact Option.noConfusion hsome
        | ok c =>
          simp only [hc] at hsome
          cases ht : env.truncateToTokens c with
          | error e => simp only [ht] at hsome; exact Option.noConfusion hsome
          | ok t =>
            simp only [ht] at hsome
            cases hv : env.encode t with
            | error e => simp only [hv] at hsome; exact Option.noConfusion hsome
            | ok v =>
              simp only [hv] at hsome
              cases hn : env.normalize v with
              | error e => simp only [hn] at hsome; exact Option.noConfusion hsome
              | ok n =>
                simp only [hn] at hsome
                cases hbin : env.toBinary n with
                | error e => simp only [hbin] at hsome; exact Option.noConfusion hsome
                | ok bb =>
                  simp only [hbin, Option.some.injEq] at hsome
                  exact ⟨c, t, v, n, rfl, ht, hv, hn, by rw [hbin, hsome]⟩
      · rintro ⟨_, c, t, v, n, hc, ht, hv, hn, hbin⟩
        simp [generateEmbedding, hb2, hc, ht, hv, hn, hbin]

/-- Witness for C10: blank input gives `None`; with every step succeeding
the result is the produced bytes. -/
theorem generate_embedding_total_witness :
    (isBlankText "  " = true ∧ generateEmbedding envOk "  " = none) ∧
    generateEmbedding envOk "hi" = some [1] :=
  ⟨⟨by decide, (generate_embedding_total envOk "  ").1 (by decide)⟩,
   ((generate_embedding_total envOk "hi").2.2.2.2.2.2 [1]).mpr
     ⟨by decide, "hi", "hi", [1], [1], rfl, rfl, rfl, rfl, rfl⟩⟩

/-- C3 counterexample: when the video document is missing the code raises a
plain exception, which routes to `_handle_job_failure` like any transient
error: at the concrete fresh job (retry_count 0, `max_retries = 3`) the
retry count IS incremented to 1 and the job IS requeued to pending —
contradicting the claim that the job fails immediately without consuming a
retry. -/
theorem process_missing_video_counterexample :
    processAttempt envNoVideo = ([PEvent.fetchVideo], some "video not found in database") ∧
    (handleJobFailure 3 (freshJob 7 "gone" 0 0) "video not found in database" 0 1).job.retry_count
      = 1 ∧
    (handleJobFailure 3 (freshJob 7 "gone" 0 0) "video not found in database" 0 1).job.status
      = JobStatus.pending := by
  refine ⟨rfl, ?_, ?_⟩ <;> rfl

/-- C3 (amended): a missing content item is handled as an ordinary failure,
not as a permanent one: the attempt stops after the video lookup with an
error that goes to the standard failure handler, which increments
`retry_count` and requeues the job to pending while the incremented count is
below `max_retries`, and marks it failed once the count reaches
`max_retries`. -/
theorem process_missing_video_retries (env : ProcEnv) (maxRetries now : Nat)
    (job : Job) (jd : ℚ) (hmiss : env.videoExists = false) :
    processAttempt env = ([PEvent.fetchVideo], some "video not found in database") ∧
    (job.retry_count + 1 < maxRetries →
      (handleJobFailure maxRetries job "video not found in database" jd now).job.status
          = JobStatus.pending ∧
      (handleJobFailure maxRetries job "video not found in database" jd now).job.retry_count
          = job.retry_count + 1) ∧
    (maxRetries ≤ job.retry_count + 1 →
      (handleJobFailure maxRetries job "video not found in database" jd now).job.status
          = JobStatus.failed ∧
      (handleJobFailure maxRetries job "video not found in database" jd now).job.retry_count
          = job.retry_count + 1) := by
  refine ⟨by simp [processAttempt, hmiss], ?_, ?_⟩
  · intro h
    rw [handleJobFailure]
    rw [if_neg (by omega)]
    exact ⟨rfl, rfl⟩
  · intro h
    rw [handleJobFailure]
    rw [if_pos (by omega)]
    exact ⟨rfl, rfl⟩

/-- Witness for the amended C3 at the concrete missing-video environment. -/
theorem process_missing_video_retries_witness :
    envNoVideo.videoExists = false ∧
    processAttempt envNoVideo = ([PEvent.fetchVideo], some "video not found in database") :=
  ⟨rfl, (process_missing_video_retries envNoVideo 3 1 (freshJob 7 "gone" 0 0) 0 rfl).1⟩

/-- C4 counterexample: on the concrete fully successful attempt, the quiz
handoff (`enqueue_quiz_job`, step 4 of the code) happens BEFORE the video
write (step 5), so the claimed ordering "transcript and embedding are
written ... before the handoff" is false. -/
theorem success_order_counterexample :
    ¬ ((processAttempt envSuccess).1.indexOf PEvent.writeVideo <
        (processAttempt envSuccess).1.indexOf PEvent.enqueueQuiz) := by
  decide

/-- C4 (amended): on the success path the order is: fetch video, fetch
transcript, generate embedding, hand off to the quiz queue, THEN write
transcript + embedding + `processing_status="completed"` to the content
item, and finally mark the job completed; in particular the handoff
precedes the content-item write, and both precede marking the job
completed. -/
theorem success_path_order (env : ProcEnv) (t : String) (b : List Nat)
    (hv : env.videoExists = true) (ht : env.transcriptResult = some t)
    (hte : t.data.isEmpty = false) (hb : env.embeddingBinary = some b)
    (hbe : b.isEmpty = false) :
    processAttempt env =
      ([PEvent.fetchVideo, PEvent.fetchTranscript, PEvent.generateEmbedding,
        PEvent.enqueueQuiz, PEvent.writeVideo, PEvent.markJobCompleted], none) ∧
    ((processAttempt env).1.indexOf PEvent.generateEmbedding <
      (processAttempt env).1.indexOf PEvent.enqueueQuiz ∧
     (processAttempt env).1.indexOf PEvent.enqueueQuiz <
      (processAttempt env).1.indexOf PEvent.writeVideo ∧
     (processAttempt env).1.indexOf PEvent.writeVideo <
      (processAttempt env).1.indexOf PEvent.markJobCompleted) := by
  have hp : processAttempt env =
      ([PEvent.fetchVideo, PEvent.fetchTranscript, PEvent.generateEmbedding,
        PEvent.enqueueQuiz, PEvent.writeVideo, PEvent.markJobCompleted], none) := by
    simp [processAttempt, hv, ht, hte, hb, hbe]
  refine ⟨hp, ?_⟩
  rw [hp]
  refine ⟨by decide, by decide, by decide⟩

/-- Witness for the amended C4 at the concrete successful environment. -/
theorem success_path_order_witness :
    (envSuccess.videoExists = true ∧ envSuccess.transcriptResult = some "t" ∧
      "t".data.isEmpty = false ∧ envSuccess.embeddingBinary = some [1] ∧
      ([1] : List Nat).isEmpty = false) ∧
    processAttempt envSuccess =
      ([PEvent.fetchVideo, PEvent.fetchTranscript, PEvent.generateEmbedding,
        PEvent.enqueueQuiz, PEvent.writeVideo, PEvent.markJobCompleted], none) :=
  ⟨⟨rfl, rfl, rfl, rfl, rfl⟩,
    (success_path_order envSuccess "t" [1] rfl rfl rfl rfl rfl).1⟩

theorem chunkStep_bug : chunkStep bugText 5 3 0 = (['a', 'b'], 0) := by
  decide

theorem chunkLoop_bug : ∀ fuel acc, chunkLoop bugText 5 3 fuel 0 acc = none := by
  intro fuel
  induction fuel with
  | zero => intro acc; rfl
  | succ m ih =>
    intro acc
    rw [chunkLoop]
    rw [if_pos (by decide : (0 : Nat) < bugText.length)]
    show chunkLoop bugText 5 3 m (chunkStep bugText 5 3 0).2
      (acc ++ [(chunkStep bugText 5 3 0).1]) = none
    rw [chunkStep_bug]
    exact ih _

/-- C7 is violated by the code: on the text "ab cccc" with
`chunk_size_chars = 5 > overlap_chars = 3 > 0` (parameters satisfying the
claim's precondition) the loop's window start does not advance: the window
end backs off to the space at index 2, the next start is `2 - 3` clamped to
0 by the code's own "prevent infinite loop" guard, and the loop repeats the
identical iteration forever — `chunk_text` never terminates, whatever fuel
it is given. -/
theorem chunk_text_nontermination : ∀ fuel, chunkText fuel bugText 5 3 = none := by
  intro fuel
  unfold chunkText
  rw [if_neg (by decide), if_neg (by decide)]
  exact chunkLoop_bug fuel []

theorem sum_sq_nonneg (v : List ℝ) : 0 ≤ (v.map (fun x => x * x)).sum := by
  apply List.sum_nonneg
  intro x hx
  obtain ⟨y, _, rfl⟩ := List.mem_map.mp hx
  exact mul_self_nonneg y

theorem l2norm_nonneg (v : List ℝ) : 0 ≤ l2norm v :=
  Real.sqrt_nonneg _

theorem l2norm_map_div (v : List ℝ) {c : ℝ} (hc : 0 < c) :
    l2norm (v.map (fun x => x / c)) = l2norm v / c := by
  unfold l2norm
  rw [List.map_map]
  have h1 : ((fun x => x * x) ∘ fun x => x / c) = fun x => (x * x) * (c * c)⁻¹ := by
    funext x
    simp only [Function.comp, div_eq_mul_inv]
    ring
  rw [h1]
  rw [List.sum_map_mul_right]
  rw [← div_eq_mul_inv]
  rw [Real.sqrt_div (sum_sq_nonneg v)]
  rw [Real.sqrt_mul_self (le_of_lt hc)]

theorem l2norm_normalize {v : List ℝ} (h : l2norm v ≠ 0) :
    l2norm (normalizeEmbedding v) = 1 := by
  have hpos : 0 < l2norm v := lt_of_le_of_ne (l2norm_nonneg v) (Ne.symm h)
  unfold normalizeEmbedding
  rw [if_neg h]
  rw [l2norm_map_div v hpos]
  exact div_self h

/-- C9: `_normalize_embedding` returns the vector unchanged when the L2
norm is exactly zero, divides every component by the L2 norm otherwise,
and is idempotent: normalizing a normalized vector changes nothing. -/
theorem normalize_embedding_spec (v : List ℝ) :
    (l2norm v = 0 → normalizeEmbedding v = v) ∧
    (l2norm v ≠ 0 → normalizeEmbedding v = v.map (fun x => x / l2norm v)) ∧
    normalizeEmbedding (normalizeEmbedding v) = normalizeEmbedding v := by
  refine ⟨fun h => by rw [normalizeEmbedding, if_pos h],
          fun h => by rw [normalizeEmbedding, if_neg h], ?_⟩
  by_cases h : l2norm v = 0
  · have hv : normalizeEmbedding v = v := by rw [normalizeEmbedding, if_pos h]
    rw [hv]
    exact hv
  · have h1 : l2norm (normalizeEmbedding v) = 1 := l2norm_normalize h
    rw [normalizeEmbedding, if_neg (h1 ▸ one_ne_zero)]
    rw [h1]
    have : (fun x => x / (1 : ℝ)) = fun x : ℝ => x := by
      funext x
      exact div_one x
    rw [this, List.map_id']

/-- Witness for C9 at the zero vector (zero norm) and at a nonzero vector. -/
theorem normalize_embedding_spec_witness :
    (l2norm [(0 : ℝ), 0] = 0 ∧ normalizeEmbedding [(0 : ℝ), 0] = [0, 0]) ∧
    normalizeEmbedding (normalizeEmbedding [(3 : ℝ), 4]) =
      normalizeEmbedding [(3 : ℝ), 4] := by
  have h0 : l2norm [(0 : ℝ), 0] = 0 := by
    simp [l2norm]
  exact ⟨⟨h0, (normalize_embedding_spec [(0 : ℝ), 0]).1 h0⟩,
    (normalize_embedding_spec [(3 : ℝ), 4]).2.2⟩

theorem claimPendingJobs_rec (now : Nat) :
    ∀ (limit : Nat) (store : List Job), (store.map Job.id).Nodup →
    (claimPendingJobs now limit store).1.length ≤ limit ∧
    (∀ x ∈ (claimPendingJobs now limit store).1,
      ∃ y ∈ store, y.id = x.id ∧ y.status = JobStatus.pending ∧ x = claimUpdate now y) ∧
    List.Chain' claimOrder (claimPendingJobs now limit store).1 ∧
    ((claimPendingJobs now limit store).1.map Job.id).Nodup ∧
    ((claimPendingJobs now limit store).2.map Job.id = store.map Job.id) ∧
    (∀ y ∈ (claimPendingJobs now limit store).2, isPending y = true → y ∈ store) ∧
    (∀ y ∈ store, y.status = JobStatus.processing →
      y ∈ (claimPendingJobs now limit store).2) ∧
    (∀ x ∈ (claimPendingJobs now limit store).1,
      ∃ y ∈ (claimPendingJobs now limit store).2,
        y.id = x.id ∧ y.status = JobStatus.processing) := by
  intro limit
  induction limit with
  | zero =>
    intro store hnd
    exact ⟨Nat.le_refl 0,
      fun x hx => (List.not_mem_nil x hx).elim,
      List.chain'_nil,
      List.nodup_nil,
      rfl,
      fun y hy _ => hy,
      fun y hy _ => hy,
      fun x hx => (List.not_mem_nil x hx).elim⟩
  | succ limit ih =>
    intro store hnd
    cases hco : claimOne now store with
    | mk o store2 =>
      cases o with
      | none =>
        obtain ⟨hs2, hpc⟩ := claimOne_none hco
        have heq : claimPendingJobs now (limit + 1) store = ([], store) := by
          simp only [claimPendingJobs, hco, hs2]
        rw [heq]
        exact ⟨Nat.zero_le _,
          fun x hx => (List.not_mem_nil x hx).elim,
          List.chain'_nil,
          List.nodup_nil,
          rfl,
          fun y hy _ => hy,
          fun y hy _ => hy,
          fun x hx => (List.not_mem_nil x hx).elim⟩
      | some j =>
        obtain ⟨j0, hsel, hj, hs2⟩ := claimOne_some hco
        obtain ⟨hj0mem, hj0pend, hbest⟩ := selectPending_spec hsel
        have hids2 : store2.map Job.id = store.map Job.id := by
          rw [hs2]
          exact updateById_map_id rfl
        have hnd2 : (store2.map Job.id).Nodup := by
          rw [hids2]
          exact hnd
        have heq : claimPendingJobs now (limit + 1) store =
            (j :: (claimPendingJobs now limit store2).1,
             (claimPendingJobs now limit store2).2) := by
          simp only [claimPendingJobs, hco]
        obtain ⟨ih1, ih2, ih3, ih4, ih5, ih6, ih7, ih8⟩ := ih store2 hnd2
        have hpend2 : ∀ y ∈ store2, y.status = JobStatus.pending →
            y ∈ store ∧ y.id ≠ j0.id := by
          intro y hy hyp
          rw [hs2] at hy
          rcases mem_updateById_elim hy with rfl | hmem
          · exact absurd hyp (by simp [claimUpdate])
          · exact hmem
        rw [heq]
        refine ⟨?_, ?_, ?_, ?_, ?_, ?_, ?_, ?_⟩
        · exact Nat.succ_le_succ ih1
        · intro x hx
          rcases List.mem_cons.mp hx with rfl | hx2
          · exact ⟨j0, hj0mem, by rw [hj]; rfl, hj0pend, hj⟩
          · obtain ⟨y, hy, hyid, hyp, hxy⟩ := ih2 x hx2
            exact ⟨y, (hpend2 y hy hyp).1, hyid, hyp, hxy⟩
        · rw [List.chain'_cons']
          refine ⟨?_, ih3⟩
          intro z hz
          obtain ⟨y, hy, hyid, hyp, hzy⟩ :=
            ih2 z (List.mem_of_mem_head? hz)
          obtain ⟨hyst, _⟩ := hpend2 y hy hyp
          have hco2 : claimOrder j0 y :=
            claimOrder_of_not_better (hbest y hyst hyp)
          rw [hj, hzy]
          simpa [claimOrder, claimUpdate] using hco2
        · rw [List.map_cons, List.nodup_cons]
          refine ⟨?_, ih4⟩
          intro hcontra
          obtain ⟨x, hx, hxid⟩ := List.mem_map.mp hcontra
          obtain ⟨y, hy, hyid, hyp, _⟩ := ih2 x hx
          apply (hpend2 y hy hyp).2
          rw [hyid, hxid, hj]
          rfl
        · rw [ih5, hids2]
        · intro y hy hyp
          exact (hpend2 y (ih6 y hy hyp) (isPending_iff.mp hyp)).1
        · intro y hy hyproc
          have hyne : y.id ≠ j0.id := by
            intro hcontra
            have hyeq : y = j0 := List.inj_on_of_nodup_map hnd hy hj0mem hcontra
            rw [hyeq, hj0pend] at hyproc
            exact JobStatus.noConfusion hyproc
          have hy2 : y ∈ store2 := by
            rw [hs2]
            exact mem_updateById_of_ne hy hyne
          exact ih7 y hy2 hyproc
        · intro x hx
          rcases List.mem_cons.mp hx with rfl | hx2
          · have hmem2 : claimUpdate now j0 ∈ store2 := by
              rw [hs2]
              exact mem_updateById_self hj0mem rfl
            exact ⟨claimUpdate now j0, ih7 (claimUpdate now j0) hmem2 rfl, by rw [hj], rfl⟩
          · exact ih8 x hx2

/-- C1: a single call of `_claim_pending_jobs(limit)` returns at most
`limit` jobs; every returned job corresponds to a job that was pending in
the store before the call and is processing in the store after it (each
transition performed by one atomic find-and-update, which is the structure
of `claimOne`); and the returned sequence is ordered by priority
descending, then created_at ascending. -/
theorem claim_batch_spec (now limit : Nat) (store : List Job)
    (hnd : (store.map Job.id).Nodup) :
    (claimPendingJobs now limit store).1.length ≤ limit ∧
    (∀ x ∈ (claimPendingJobs now limit store).1,
      (∃ y ∈ store, y.id = x.id ∧ y.status = JobStatus.pending ∧ x = claimUpdate now y) ∧
      x.status = JobStatus.processing ∧
      ∃ y ∈ (claimPendingJobs now limit store).2,
        y.id = x.id ∧ y.status = JobStatus.processing) ∧
    List.Chain' claimOrder (claimPendingJobs now limit store).1 := by
  obtain ⟨h1, h2, h3, _, _, _, _, h8⟩ := claimPendingJobs_rec now limit store hnd
  refine ⟨h1, ?_, h3⟩
  intro x hx
  obtain ⟨y, hy, hid, hp, hxy⟩ := h2 x hx
  exact ⟨⟨y, hy, hid, hp, hxy⟩, by rw [hxy]; rfl, h8 x hx⟩

/-- Witness for C1 on the spec's ordering example: three pending jobs with
priorities [1, 5, 3] are claimed in the order 5, 3, 1. -/
theorem claim_batch_spec_witness :
    (storePrio.map Job.id).Nodup ∧
    (claimPendingJobs 10 3 storePrio).1.map Job.priority = [5, 3, 1] ∧
    (claimPendingJobs 10 3 storePrio).1.length ≤ 3 :=
  ⟨by decide, by decide, (claim_batch_spec 10 3 storePrio (by decide)).1⟩

theorem claimerDone_false {limit : Nat} {c : ClaimerState}
    (h : claimerDone limit c = false) :
    c.stopped = false ∧ c.claimed.length < limit := by
  simp [claimerDone] at h
  exact ⟨h.1, by omega⟩

theorem pendingCount_pos {store : List Job} {j : Job} (hj : j ∈ store)
    (hp : j.status = JobStatus.pending) : 0 < pendingCount store :=
  List.length_pos_of_mem (List.mem_filter.mpr ⟨hj, isPending_iff.mpr hp⟩)

theorem poolStep_numClaimers (limit : Nat) (s : PoolState) (i : Nat) :
    (poolStep limit s i).numClaimers = s.numClaimers := by
  unfold poolStep
  by_cases hi : i < s.numClaimers
  · rw [if_pos hi]
    by_cases hd : claimerDone limit (s.claimers i) = true
    · rw [if_pos hd]
    · rw [if_neg hd]
      cases hco : claimOne 0 s.store with
      | mk o store2 => cases o <;> rfl
  · rw [if_neg hi]

theorem runPool_numClaimers (limit : Nat) (sched : List Nat) (s : PoolState) :
    (runPool limit sched s).numClaimers = s.numClaimers := by
  induction sched generalizing s with
  | nil => rfl
  | cons a l ihl =>
    show (runPool limit l (poolStep limit s a)).numClaimers = s.numClaimers
    rw [ihl, poolStep_numClaimers]

theorem sum_map_range_update (f : Nat → ClaimerState) (g : ClaimerState → Nat)
    (i n : Nat) (c : ClaimerState) (h : i < n) :
    ((List.range n).map (fun k => g (Function.update f i c k))).sum + g (f i)
      = ((List.range n).map (fun k => g (f k))).sum + g c := by
  induction n with
  | zero => exact absurd h (Nat.not_lt_zero i)
  | succ n ihn =>
    rw [List.range_succ, List.map_append, List.map_append,
      List.sum_append, List.sum_append]
    by_cases hi : i < n
    · have hne : n ≠ i := by omega
      have hupd : Function.update f i c n = f n := Function.update_noteq hne c f
      simp only [List.map_cons, List.map_nil, List.sum_cons, List.sum_nil, hupd]
      have := ihn hi
      omega
    · have hieq : i = n := by omega
      subst hieq
      have hmap : (List.range i).map (fun k => g (Function.update f i c k))
          = (List.range i).map (fun k => g (f k)) := by
        apply List.map_congr_left
        intro a ha
        have hane : a ≠ i := by
          have := List.mem_range.mp ha
          omega
        rw [Function.update_noteq hane]
      rw [hmap]
      simp only [List.map_cons, List.map_nil, List.sum_cons, List.sum_nil,
        Function.update_same]
      omega

theorem sum_map_range_le (g : Nat → Nat) (n v : Nat) (h : ∀ k, k < n → g k ≤ v) :
    ((List.range n).map g).sum ≤ n * v := by
  induction n with
  | zero => simp
  | succ n ihn =>
    rw [List.range_succ, List.map_append, List.sum_append, Nat.succ_mul]
    have h1 := ihn (fun k hk => h k (by omega))
    have h2 := h n (by omega)
    simp only [List.map_cons, List.map_nil, List.sum_cons, List.sum_nil]
    omega

theorem sum_map_range_eq (g : Nat → Nat) (n v : Nat) (h : ∀ k, k < n → g k = v) :
    ((List.range n).map g).sum = n * v := by
  induction n with
  | zero => simp
  | succ n ihn =>
    rw [List.range_succ, List.map_append, List.sum_append, Nat.succ_mul]
    have h1 := ihn (fun k hk => h k (by omega))
    have h2 := h n (by omega)
    simp only [List.map_cons, List.map_nil, List.sum_cons, List.sum_nil]
    omega


theorem poolStep_inv (limit M : Nat) (s : PoolState) (i : Nat)
    (h : PoolInv limit M s) : PoolInv limit M (poolStep limit s i) := by
  obtain ⟨store, n, f⟩ := s
  unfold poolStep
  dsimp only
  by_cases hi : i < n
  · rw [if_pos hi]
    by_cases hd : claimerDone limit (f i) = true
    · rw [if_pos hd]
      exact h
    · rw [if_neg hd]
      have hdf := claimerDone_false (by simpa using hd)
      obtain ⟨inv1, inv2, inv3, inv4, inv5, inv6, inv7⟩ := h
      simp only [claimedIds, totalClaimed] at inv2 inv6 inv7
      dsimp only at inv1 inv2 inv3 inv4 inv5 inv6 inv7
      cases hco : claimOne 0 store with
      | mk o store2 =>
        cases o with
        | none =>
          obtain ⟨hs2, hpc⟩ := claimOne_none hco
          subst hs2
          simp only [PoolInv, claimedIds, totalClaimed]
          have hgc : ∀ k, (Function.update f i ⟨(f i).claimed, true⟩ k).claimed
              = (f k).claimed := by
            intro k
            by_cases hki : k = i
            · subst hki
              rw [Function.update_same]
            · rw [Function.update_noteq hki]
          refine ⟨inv1, ?_, ?_, ?_, ?_, ?_, ?_⟩
          · have hmap : ((List.range n).map (fun k =>
                (Function.update f i ⟨(f i).claimed, true⟩ k).claimed.length)).sum
                = ((List.range n).map (fun k => (f k).claimed.length)).sum := by
              apply congrArg
              apply List.map_congr_left
              intro a _
              rw [hgc a]
            rw [hmap]
            exact inv2
          · intro k hk
            rw [hgc k]
            exact inv3 k hk
          · intro k hk _
            exact hpc
          · intro k hk x hx
            rw [hgc k] at hx
            exact inv5 k hk x hx
          · intro k hk
            rw [hgc k]
            exact inv6 k hk
          · intro k m hk hm hkm x hxk
            rw [hgc m]
            rw [hgc k] at hxk
            exact inv7 k m hk hm hkm x hxk
        | some j =>
          obtain ⟨j0, hsel, hj, hs2⟩ := claimOne_some hco
          obtain ⟨hj0mem, hj0pend, hbest⟩ := selectPending_spec hsel
          have hjid : j.id = j0.id := by rw [hj]; rfl
          have hnotclaimed : ∀ k, k < n → j0.id ∉ (f k).claimed.map Job.id := by
            intro k hk hmem
            obtain ⟨x, hx, hxid⟩ := List.mem_map.mp hmem
            obtain ⟨y, hy, hyid, hyproc⟩ := inv5 k hk x hx
            have hyj0 : y = j0 :=
              List.inj_on_of_nodup_map inv1 hy hj0mem (by rw [hyid, hxid])
            rw [hyj0, hj0pend] at hyproc
            exact JobStatus.noConfusion hyproc
          have hpc1 : pendingCount store2 + 1 = pendingCount store := by
            rw [hs2]
            exact pendingCount_updateById inv1 hj0mem (isPending_iff.mpr hj0pend)
              (by simp [isPending, claimUpdate])
          have hmem2 : ∀ y ∈ store, y.status = JobStatus.processing → y ∈ store2 := by
            intro y hy hyproc
            have hyne : y.id ≠ j0.id := by
              intro hcontra
              have hyeq : y = j0 := List.inj_on_of_nodup_map inv1 hy hj0mem hcontra
              rw [hyeq, hj0pend] at hyproc
              exact JobStatus.noConfusion hyproc
            rw [hs2]
            exact mem_updateById_of_ne hy hyne
          have hgc : ∀ k, k ≠ i →
              Function.update f i ⟨(f i).claimed ++ [j], (f i).stopped⟩ k = f k := by
            intro k hki
            rw [Function.update_noteq hki]
          simp only [PoolInv, claimedIds, totalClaimed]
          refine ⟨?_, ?_, ?_, ?_, ?_, ?_, ?_⟩
          · rw [hs2]
            have hmap := @updateById_map_id store j0.id (claimUpdate 0 j0) rfl
            rw [hmap]
            exact inv1
          · have hsum : ((List.range n).map (fun k =>
                (Function.update f i ⟨(f i).claimed ++ [j], (f i).stopped⟩
                  k).claimed.length)).sum
                = ((List.range n).map (fun k => (f k).claimed.length)).sum + 1 := by
              have hup := sum_map_range_update f (fun cs => cs.claimed.length) i n
                ⟨(f i).claimed ++ [j], (f i).stopped⟩ hi
              dsimp only at hup
              rw [List.length_append] at hup
              simp only [List.length_cons, List.length_nil] at hup
              omega
            rw [hsum]
            omega
          · intro k hk
            by_cases hki : k = i
            · subst hki
              rw [Function.update_same]
              dsimp only
              rw [List.length_append]
              simp only [List.length_cons, List.length_nil]
              omega
            · rw [hgc k hki]
              exact inv3 k hk
          · intro k hk hkstop
            exfalso
            by_cases hki : k = i
            · subst hki
              rw [Function.update_same] at hkstop
              dsimp only at hkstop
              rw [hdf.1] at hkstop
              exact Bool.noConfusion hkstop
            · rw [hgc k hki] at hkstop
              have h0 := inv4 k hk hkstop
              have hpos := pendingCount_pos hj0mem hj0pend
              omega
          · intro k hk x hx
            by_cases hki : k = i
            · subst hki
              rw [Function.update_same] at hx
              dsimp only at hx
              rcases List.mem_append.mp hx with hx2 | hx2
              · obtain ⟨y, hy, hyid, hyproc⟩ := inv5 k hk x hx2
                exact ⟨y, hmem2 y hy hyproc, hyid, hyproc⟩
              · have hxj : x = j := by simpa using hx2
                subst hxj
                refine ⟨claimUpdate 0 j0, ?_, by rw [hj], rfl⟩
                rw [hs2]
                exact mem_updateById_self hj0mem rfl
            · rw [hgc k hki] at hx
              obtain ⟨y, hy, hyid, hyproc⟩ := inv5 k hk x hx
              exact ⟨y, hmem2 y hy hyproc, hyid, hyproc⟩
          · intro k hk
            by_cases hki : k = i
            · subst hki
              rw [Function.update_same]
              dsimp only
              rw [List.map_append]
              simp only [List.map_cons, List.map_nil]
              rw [List.nodup_append]
              refine ⟨inv6 k hk, List.nodup_singleton _, ?_⟩
              intro a ha hb
              have haj : a = j.id := by simpa using hb
              rw [haj, hjid] at ha
              exact hnotclaimed k hk ha
            · rw [hgc k hki]
              exact inv6 k hk
          · intro k m hk hm hkm x hxk
            by_cases hki : k = i
            · subst hki
              rw [Function.update_same] at hxk
              dsimp only at hxk
              rw [List.map_append] at hxk
              rw [hgc m (Ne.symm hkm)]
              rcases List.mem_append.mp hxk with hx2 | hx2
              · exact inv7 k m hk hm hkm x hx2
              · have hxj : x = j.id := by simpa using hx2
                rw [hxj, hjid]
                exact hnotclaimed m hm
            · rw [hgc k hki] at hxk
              by_cases hmi : m = i
              · subst hmi
                rw [Function.update_same]
                dsimp only
                rw [List.map_append]
                intro hcontra
                rcases List.mem_append.mp hcontra with hx2 | hx2
                · exact inv7 k m hk hm hkm x hxk hx2
                · have hxj : x = j.id := by simpa using hx2
                  rw [hxj, hjid] at hxk
                  exact hnotclaimed k hk hxk
              · rw [hgc m hmi]
                exact inv7 k m hk hm hkm x hxk
  · rw [if_neg hi]
    exact h

theorem runPool_inv (limit M : Nat) (sched : List Nat) (s : PoolState)
    (h : PoolInv limit M s) : PoolInv limit M (runPool limit sched s) := by
  induction sched generalizing s with
  | nil => exact h
  | cons a l ihl =>
    show PoolInv limit M (runPool limit l (poolStep limit s a))
    exact ihl _ (poolStep_inv limit M s a h)

theorem poolInv_init (limit : Nat) (store : List Job) (n : Nat)
    (hnd : (store.map Job.id).Nodup) :
    PoolInv limit (pendingCount store) (initPool store n) := by
  unfold initPool PoolInv
  refine ⟨hnd, ?_, ?_, ?_, ?_, ?_, ?_⟩
  · simp only [totalClaimed, List.length_nil]
    rw [sum_map_range_eq _ n 0 (fun k _ => rfl)]
    omega
  · intro k _
    exact Nat.zero_le limit
  · intro k _ hst
    exact Bool.noConfusion hst
  · intro k _ x hx
    exact absurd hx (List.not_mem_nil x)
  · intro k _
    exact List.nodup_nil
  · intro k m _ _ _ x hx
    exact absurd hx (List.not_mem_nil x)

/-- C2: for any interleaving of `n` concurrent callers of the claim loop of
`_claim_pending_jobs`, each with the same `limit`, once every caller's loop
has ended the total number of jobs returned across the callers is exactly
`min (n * limit) M`, where `M` is the number of initially pending jobs, and
no job is returned twice — neither twice to one caller nor to two different
callers (each atomic find-and-update hands a pending job to exactly one
winner). -/
theorem concurrent_claim_exactly_once (store : List Job) (n limit : Nat)
    (sched : List Nat) (hnd : (store.map Job.id).Nodup)
    (hdone : allDone limit (runPool limit sched (initPool store n)) = true) :
    totalClaimed (runPool limit sched (initPool store n))
        = min (n * limit) (pendingCount store) ∧
    (∀ i, i < n → (claimedIds (runPool limit sched (initPool store n)) i).Nodup) ∧
    (∀ i j, i < n → j < n → i ≠ j →
      ∀ x ∈ claimedIds (runPool limit sched (initPool store n)) i,
        x ∉ claimedIds (runPool limit sched (initPool store n)) j) := by
  have hnum : (runPool limit sched (initPool store n)).numClaimers = n := by
    rw [runPool_numClaimers]
    rfl
  have hinv := runPool_inv limit (pendingCount store) sched (initPool store n)
    (poolInv_init limit store n hnd)
  obtain ⟨inv1, inv2, inv3, inv4, inv5, inv6, inv7⟩ := hinv
  rw [hnum] at inv3 inv4 inv5 inv6 inv7
  refine ⟨?_, inv6, inv7⟩
  have hdone2 : ∀ k, k < n →
      claimerDone limit ((runPool limit sched (initPool store n)).claimers k) = true := by
    intro k hk
    simp only [allDone] at hdone
    exact List.all_eq_true.mp hdone k (List.mem_range.mpr (hnum.symm ▸ hk))
  by_cases hstop : ∃ k, k < n ∧
      ((runPool limit sched (initPool store n)).claimers k).stopped = true
  · obtain ⟨k, hk, hst⟩ := hstop
    have hp0 : pendingCount (runPool limit sched (initPool store n)).store = 0 :=
      inv4 k hk hst
    have htot : totalClaimed (runPool limit sched (initPool store n))
        = pendingCount store := by omega
    have hle : totalClaimed (runPool limit sched (initPool store n)) ≤ n * limit := by
      unfold totalClaimed
      rw [hnum]
      exact sum_map_range_le _ n limit inv3
    rw [htot] at hle ⊢
    exact (min_eq_right hle).symm
  · push_neg at hstop
    have hlen : ∀ k, k < n →
        ((runPool limit sched (initPool store n)).claimers k).claimed.length = limit := by
      intro k hk
      have hdk := hdone2 k hk
      simp [claimerDone] at hdk
      rcases hdk with hdk | hdk
      · exact absurd hdk (hstop k hk)
      · have := inv3 k hk
        omega
    have htot : totalClaimed (runPool limit sched (initPool store n)) = n * limit := by
      unfold totalClaimed
      rw [hnum]
      exact sum_map_range_eq _ n limit hlen
    rw [htot]
    have hge : n * limit ≤ pendingCount store := by omega
    exact (min_eq_left hge).symm

/-- Witness for C2: two concurrent callers with `limit = 1` over three
pending jobs; the schedule lets each perform its atomic claim, both finish,
and exactly `min (2*1) 3 = 2` jobs are handed out. -/
theorem concurrent_claim_exactly_once_witness :
    ((storePrio.map Job.id).Nodup ∧
      allDone 1 (runPool 1 [0, 1] (initPool storePrio 2)) = true) ∧
    totalClaimed (runPool 1 [0, 1] (initPool storePrio 2))
      = min (2 * 1) (pendingCount storePrio) :=
  ⟨⟨by decide, by decide⟩,
    (concurrent_claim_exactly_once storePrio 2 1 [0, 1] (by decide) (by decide)).1⟩
